import Mathlib

/-!
Verification of the dash-stroke core of `src/main.rs` (dash pattern,
dash cursor state machine, path dasher).

Numbers: the Rust code computes over `f32`. The embedding models the
numeric type as an arbitrary linear ordered field, instantiated at `ℚ`
for executable statements about the cursor and at `ℝ` for the geometric
path dasher (whose notion of segment length involves a square root).
Floating-point rounding is outside the model; arithmetic is exact.
-/

variable {α : Type} [LinearOrderedField α]

/-- Embedding of `enum DashActionType { Dash, Gap }`. -/
inductive DashActionType : Type where
  | Dash : DashActionType
  | Gap : DashActionType
  deriving DecidableEq, Repr

/-- Embedding of `struct DashOptions { initial_offset: f32, array: Vec<f32> }`. -/
structure DashOptions (α : Type) where
  initial_offset : α
  array : List α
  deriving DecidableEq, Repr

/-- Embedding of `DashOptions::new`: the Rust constructor asserts that the
array is non-empty and that `find` detects no element `x <= 0.0`; a failed
assertion aborts construction, modelled as `none`. -/
def DashOptions.new (initial_offset : α) (array : List α) : Option (DashOptions α) :=
  if array.isEmpty then none
  else if (array.find? (fun x => decide (x ≤ 0))).isSome then none
  else some { initial_offset := initial_offset, array := array }

/-- Embedding of `struct DashCursor`. -/
@[ext]
structure DashCursor (α : Type) where
  array : List α
  cumulative_array : List α
  initial_offset : α
  initial_index : ℕ
  current_offset : α
  current_index : ℕ
  deriving DecidableEq, Repr

/-- Embedding of `struct DashAction`. -/
@[ext]
structure DashAction (α : Type) where
  length : α
  remaining_distance : α
  dash_action_type : DashActionType
  deriving DecidableEq, Repr

/-- Helper for `DashCursor::cumulate_array`: the Rust `scan` loop with running
accumulator `acc`, updating `acc` to `acc + x` and yielding it at each
element. -/
def cumulate_go (acc : α) : List α → List α
  | [] => []
  | x :: xs => (acc + x) :: cumulate_go (acc + x) xs

/-- Embedding of `DashCursor::cumulate_array`: running prefix sums. -/
def DashCursor.cumulate_array (array : List α) : List α :=
  cumulate_go 0 array

/-- Helper for `DashCursor::find_index_in_cumulative_array`: the Rust loop
counts elements until the first `x > offset`. -/
def find_index_go (offset : α) : List α → ℕ
  | [] => 0
  | x :: xs => if offset < x then 0 else find_index_go offset xs + 1

/-- Embedding of `DashCursor::find_index_in_cumulative_array`. (The Rust
function additionally asserts that the result is a valid index; the proof
that this assertion holds for every normalized offset is given below.) -/
def DashCursor.find_index_in_cumulative_array (offset : α) (cumulative_array : List α) : ℕ :=
  find_index_go offset cumulative_array

/-- Model of `f32::rem_euclid` (least non-negative remainder). For a positive
modulus `y` — the only way the dash code calls it, `y` being the cycle
length — this is the floor-based remainder `x - y * ⌊x / y⌋`. -/
def rem_euclid [FloorRing α] (x y : α) : α := x - y * (⌊x / y⌋ : ℤ)

/-- Embedding of `DashCursor::new`. The Rust code reads
`*cumulative_array.last().unwrap()`; for a valid pattern the cumulative
array is non-empty, so `getLastD _ 0` agrees with it (the default `0`
stands for the unreachable unwrap failure on an empty pattern). -/
def DashCursor.new [FloorRing α] (options : DashOptions α) : DashCursor α :=
  let cumulative_array := DashCursor.cumulate_array options.array
  let current_offset := rem_euclid options.initial_offset (cumulative_array.getLastD 0)
  let current_index := DashCursor.find_index_in_cumulative_array current_offset cumulative_array
  { array := options.array
    cumulative_array := cumulative_array
    initial_offset := current_offset
    initial_index := current_index
    current_offset := current_offset
    current_index := current_index }

/-- Embedding of `DashCursor::reset`. -/
def DashCursor.reset (c : DashCursor α) : DashCursor α :=
  { c with current_offset := c.initial_offset, current_index := c.initial_index }

/-- Embedding of `DashCursor::make_dash_action_type`: even index gives Dash,
odd index gives Gap. -/
def DashCursor.make_dash_action_type (index : ℕ) : DashActionType :=
  if index % 2 = 0 then DashActionType.Dash else DashActionType.Gap

/-- Embedding of `DashCursor::progress_by`. Rust mutates `self` and returns a
`DashAction`; the embedding returns the action together with the updated
cursor. Out-of-range indexing (a Rust abort, unreachable in every state
satisfying the invariant proved below) is modelled by the `getD` default. -/
def DashCursor.progress_by (c : DashCursor α) (progress_distance : α) :
    DashAction α × DashCursor α :=
  let distance_to_next := c.cumulative_array.getD c.current_index 0 - c.current_offset
  if distance_to_next ≤ progress_distance then
    let c' :=
      if c.current_index < c.cumulative_array.length - 1 then
        { c with
            current_offset := c.cumulative_array.getD c.current_index 0
            current_index := c.current_index + 1 }
      else
        { c with current_index := 0, current_offset := 0 }
    ({ length := distance_to_next
       remaining_distance := progress_distance - distance_to_next
       dash_action_type := DashCursor.make_dash_action_type (c'.current_index + 1) }, c')
  else
    ({ length := progress_distance
       remaining_distance := 0
       dash_action_type := DashCursor.make_dash_action_type c.current_index },
     { c with current_offset := c.current_offset + progress_distance })

/-- One iteration of the remaining-distance chain: a progress_by call whose
argument is the previous call's remaining_distance. -/
def chainStep (s : DashCursor α × α) : DashCursor α × α :=
  ((s.1.progress_by s.2).2, (s.1.progress_by s.2).1.remaining_distance)

/-- An operation a caller can perform on a cursor. -/
inductive CursorOp (α : Type) where
  | progress (d : α) : CursorOp α
  | reset : CursorOp α

/-- Apply one cursor operation (discarding the returned action). -/
def applyOp (c : DashCursor α) : CursorOp α → DashCursor α
  | CursorOp.progress d => (c.progress_by d).2
  | CursorOp.reset => c.reset

/-- Apply a sequence of cursor operations in order. -/
def applyOps (c : DashCursor α) (ops : List (CursorOp α)) : DashCursor α :=
  ops.foldl applyOp c

/-- Lower edge of pattern segment `i` in cumulative space: `0` for the first
segment, `cumulative_array[i-1]` otherwise (the `cumulative_array[-1] = 0`
convention). -/
def cumBelow (l : List α) (i : ℕ) : α :=
  if i = 0 then 0 else l.getD (i - 1) 0

/-- State invariant of a dash cursor: the static data is a valid pattern
together with its prefix sums, and both the current position and the stored
initial position lie inside the pattern segment selected by the
corresponding index. -/
def CursorInv (c : DashCursor α) : Prop :=
  c.cumulative_array = DashCursor.cumulate_array c.array ∧
  c.array ≠ [] ∧
  (∀ x ∈ c.array, 0 < x) ∧
  c.current_index < c.cumulative_array.length ∧
  cumBelow c.cumulative_array c.current_index ≤ c.current_offset ∧
  c.current_offset < c.cumulative_array.getD c.current_index 0 ∧
  c.initial_index < c.cumulative_array.length ∧
  cumBelow c.cumulative_array c.initial_index ≤ c.initial_offset ∧
  c.initial_offset < c.cumulative_array.getD c.initial_index 0

/-- 2D point (lyon `Point<f32>`), over `ℝ`. -/
@[ext]
structure Point : Type where
  x : ℝ
  y : ℝ

/-- Line segment (lyon `LineSegment<f32>`); the Rust fields `from` and `to`
are named `fromPt` and `toPt` because `from` is a Lean keyword. -/
@[ext]
structure LineSegment : Type where
  fromPt : Point
  toPt : Point

/-- Model of lyon `LineSegment::length`: the Euclidean length. -/
noncomputable def LineSegment.length (s : LineSegment) : ℝ :=
  Real.sqrt ((s.toPt.x - s.fromPt.x) ^ 2 + (s.toPt.y - s.fromPt.y) ^ 2)

/-- Model of lyon `LineSegment::sample`: linear interpolation at parameter
`t`. -/
def LineSegment.sample (s : LineSegment) (t : ℝ) : Point :=
  { x := s.fromPt.x + (s.toPt.x - s.fromPt.x) * t
    y := s.fromPt.y + (s.toPt.y - s.fromPt.y) * t }

/-- Model of lyon `LineSegment::split_range`: the sub-segment between the
samples at the two range endpoints. -/
def LineSegment.split_range (s : LineSegment) (start stop : ℝ) : LineSegment :=
  { fromPt := s.sample start, toPt := s.sample stop }

/-- Embedding of `enum DashOrGap`; the Rust `Dash` fields `from`, `to`,
`distance` become `fromPt`, `toPt`, `distance`. -/
inductive DashOrGap : Type where
  | Dash (fromPt toPt : Point) (distance : ℝ)
  | Gap (distance : ℝ)

/-- The reported distance of an emitted value (used to state length
conservation). -/
def DashOrGap.distance : DashOrGap → ℝ
  | DashOrGap.Dash _ _ d => d
  | DashOrGap.Gap d => d

/-- Embedding of `struct FlattenedEventIterator`. -/
structure FlattenedEventIterator : Type where
  cursor : DashCursor ℝ
  line : LineSegment
  line_length : ℝ
  current_relative_distance : ℝ
  remaining_distance : ℝ

/-- Embedding of `FlattenedEventIterator::new` (the initial line is the
degenerate segment at `Point::zero()`). -/
noncomputable def FlattenedEventIterator.new (options : DashOptions ℝ) : FlattenedEventIterator :=
  { cursor := DashCursor.new options
    line := { fromPt := { x := 0, y := 0 }, toPt := { x := 0, y := 0 } }
    line_length := 0
    current_relative_distance := 0
    remaining_distance := 0 }

/-- Embedding of the Rust method of `FlattenedEventIterator` that sets up the
per-line loop state (storing the line, its length, and the two running
distances) before `handle_line` iterates. -/
noncomputable def FlattenedEventIterator.init_line_loop
    (st : FlattenedEventIterator) (line : LineSegment) : FlattenedEventIterator :=
  { st with
      line := line
      line_length := line.length
      current_relative_distance := 0
      remaining_distance := line.length }

/-- Embedding of `FlattenedEventIterator::inner_line_loop`: one loop
iteration, producing the emitted `DashOrGap` and the updated state. -/
noncomputable def FlattenedEventIterator.inner_line_loop
    (st : FlattenedEventIterator) : DashOrGap × FlattenedEventIterator :=
  let pr := st.cursor.progress_by st.remaining_distance
  let action := pr.1
  let previous_relative_distance := st.current_relative_distance
  let next_relative_distance := st.current_relative_distance + action.length
  let st' :=
    { st with
        cursor := pr.2
        remaining_distance := action.remaining_distance
        current_relative_distance := next_relative_distance }
  match action.dash_action_type with
  | DashActionType.Dash =>
      let segment := st.line.split_range (previous_relative_distance / st.line_length)
        (next_relative_distance / st.line_length)
      (DashOrGap.Dash segment.fromPt segment.toPt segment.length, st')
  | DashActionType.Gap => (DashOrGap.Gap action.length, st')

/-- The `while remaining_distance > 0` loop of
`FlattenedEventIterator::handle_line`, run with explicit fuel; the list
collects the values the Rust loop yields. Fuel sufficiency (termination)
is proved below. -/
noncomputable def FlattenedEventIterator.line_loop :
    ℕ → FlattenedEventIterator → List DashOrGap × FlattenedEventIterator
  | 0, st => ([], st)
  | n + 1, st =>
      if 0 < st.remaining_distance then
        let step := st.inner_line_loop
        let rest := FlattenedEventIterator.line_loop n step.2
        (step.1 :: rest.1, rest.2)
      else ([], st)

/-- Embedding of `FlattenedEventIterator::handle_line`: set up the loop state
for the line, then run the production loop. -/
noncomputable def FlattenedEventIterator.handle_line
    (fuel : ℕ) (st : FlattenedEventIterator) (line : LineSegment) :
    List DashOrGap × FlattenedEventIterator :=
  FlattenedEventIterator.line_loop fuel (st.init_line_loop line)

/-! ### Supporting lemmas: prefix sums, index search, remainder bounds -/

theorem getD_eq_getElem {β : Type} (l : List β) (i : ℕ) (h : i < l.length) (d : β) :
    l.getD i d = l[i] := by
  rw [List.getD_eq_getElem?_getD, List.getElem?_eq_getElem h]
  rfl

theorem cumulate_go_length (acc : α) (l : List α) :
    (cumulate_go acc l).length = l.length := by
  induction l generalizing acc with
  | nil => rfl
  | cons x xs ih => simp [cumulate_go, ih]

theorem cumulate_go_getD (acc : α) (l : List α) (i : ℕ) (h : i < l.length) :
    (cumulate_go acc l).getD i 0 = acc + (l.take (i + 1)).sum := by
  induction l generalizing acc i with
  | nil => simp at h
  | cons x xs ih =>
    cases i with
    | zero => simp [cumulate_go]
    | succ j =>
      have hj : j < xs.length := by simpa using h
      have hgo : cumulate_go acc (x :: xs) = (acc + x) :: cumulate_go (acc + x) xs := rfl
      rw [hgo, List.getD_cons_succ, ih (acc + x) j hj]
      simp [add_assoc]

theorem cumulate_go_mem (acc : α) (l : List α) (hl : ∀ x ∈ l, 0 < x) :
    ∀ y ∈ cumulate_go acc l, acc < y := by
  induction l generalizing acc with
  | nil => simp [cumulate_go]
  | cons x xs ih =>
    intro y hy
    have hx : 0 < x := hl x (by simp)
    have hy2 : y = acc + x ∨ y ∈ cumulate_go (acc + x) xs := by
      simpa [cumulate_go] using hy
    rcases hy2 with h | h
    · rw [h]; linarith
    · have := ih (acc + x) (fun z hz => hl z (by simp [hz])) y h
      linarith

theorem cumulate_go_pairwise (acc : α) (l : List α) (hl : ∀ x ∈ l, 0 < x) :
    (cumulate_go acc l).Pairwise (· < ·) := by
  induction l generalizing acc with
  | nil => simp [cumulate_go]
  | cons x xs ih =>
    simp only [cumulate_go, List.pairwise_cons]
    exact ⟨cumulate_go_mem (acc + x) xs (fun z hz => hl z (by simp [hz])),
      ih (acc + x) (fun z hz => hl z (by simp [hz]))⟩

theorem cumulate_go_getLastD (acc d : α) (l : List α) (h : l ≠ []) :
    (cumulate_go acc l).getLastD d = acc + l.sum := by
  induction l generalizing acc d with
  | nil => exact absurd rfl h
  | cons x xs ih =>
    cases xs with
    | nil => simp [cumulate_go]
    | cons y ys =>
      have : cumulate_go acc (x :: y :: ys) =
          (acc + x) :: cumulate_go (acc + x) (y :: ys) := rfl
      rw [this, List.getLastD_cons, ih (acc + x) (acc + x) (by simp)]
      simp [add_assoc]

theorem getLastD_eq_getD {β : Type} (l : List β) (h : l ≠ []) (d : β) :
    l.getLastD d = l.getD (l.length - 1) d := by
  induction l generalizing d with
  | nil => exact absurd rfl h
  | cons x xs ih =>
    cases xs with
    | nil => rfl
    | cons y ys =>
      rw [List.getLastD_cons, ih (by simp) x]
      have h1 : (x :: y :: ys).length - 1 = (y :: ys).length - 1 + 1 := by simp
      rw [h1, List.getD_cons_succ,
        getD_eq_getElem _ _ (by simp) x, getD_eq_getElem _ _ (by simp) d]

theorem pairwise_getD_mono (l : List α) (hl : l.Pairwise (· < ·)) {i j : ℕ}
    (hij : i ≤ j) (hj : j < l.length) : l.getD i 0 ≤ l.getD j 0 := by
  rcases eq_or_lt_of_le hij with rfl | hlt
  · exact le_refl _
  · have hi : i < l.length := lt_trans hlt hj
    have := List.pairwise_iff_getElem.mp hl i j hi hj hlt
    rw [getD_eq_getElem _ _ hi, getD_eq_getElem _ _ hj]
    exact le_of_lt this

theorem pairwise_getD_le_getLastD (l : List α) (hl : l.Pairwise (· < ·)) {i : ℕ}
    (h : i < l.length) : l.getD i 0 ≤ l.getLastD 0 := by
  have hne : l ≠ [] := by
    intro he
    rw [he] at h
    simp at h
  rw [getLastD_eq_getD l hne 0]
  exact pairwise_getD_mono l hl (by omega) (by omega)

theorem getLastD_mem {β : Type} (l : List β) (h : l ≠ []) (d : β) :
    l.getLastD d ∈ l := by
  have hlen : 0 < l.length := List.length_pos.mpr h
  rw [getLastD_eq_getD l h d, getD_eq_getElem _ _ (by omega) d]
  exact List.getElem_mem _

theorem rem_euclid_eq_fract [FloorRing α] (x : α) {y : α} (hy : 0 < y) :
    rem_euclid x y = y * Int.fract (x / y) := by
  have hy0 : y ≠ 0 := ne_of_gt hy
  rw [rem_euclid, Int.fract, mul_sub, mul_comm y (x / y), div_mul_cancel₀ x hy0]

theorem rem_euclid_nonneg [FloorRing α] (x : α) {y : α} (hy : 0 < y) :
    0 ≤ rem_euclid x y := by
  rw [rem_euclid_eq_fract x hy]
  exact mul_nonneg hy.le (Int.fract_nonneg _)

theorem rem_euclid_lt [FloorRing α] (x : α) {y : α} (hy : 0 < y) :
    rem_euclid x y < y := by
  rw [rem_euclid_eq_fract x hy]
  have := mul_lt_mul_of_pos_left (Int.fract_lt_one (x / y)) hy
  rw [mul_one] at this
  exact this

theorem find_index_go_lt_length (offset : α) (l : List α)
    (h : ∃ x ∈ l, offset < x) : find_index_go offset l < l.length := by
  induction l with
  | nil => simp at h
  | cons a l ih =>
    by_cases ha : offset < a
    · simp [find_index_go, ha]
    · rcases h with ⟨x, hx, hox⟩
      have hxl : x ∈ l := by
        rcases List.mem_cons.mp hx with rfl | hm
        · exact absurd hox ha
        · exact hm
      have := ih ⟨x, hxl, hox⟩
      simp only [find_index_go, ha, if_false, List.length_cons]
      omega

theorem find_index_go_getD (offset : α) (l : List α)
    (h : find_index_go offset l < l.length) :
    offset < l.getD (find_index_go offset l) 0 := by
  induction l with
  | nil => simp at h
  | cons a l ih =>
    by_cases ha : offset < a
    · simp [find_index_go, ha]
    · have h' : find_index_go offset l < l.length := by
        simp only [find_index_go, ha, if_false, List.length_cons] at h
        omega
      simpa [find_index_go, ha, List.getD_cons_succ] using ih h'

theorem find_index_go_cumBelow (offset : α) (hoff : 0 ≤ offset) (l : List α) :
    cumBelow l (find_index_go offset l) ≤ offset := by
  induction l with
  | nil => simpa [find_index_go, cumBelow] using hoff
  | cons a l ih =>
    by_cases ha : offset < a
    · simpa [find_index_go, ha, cumBelow] using hoff
    · simp only [find_index_go, ha, if_false]
      cases hfl : find_index_go offset l with
      | zero =>
        simpa [cumBelow] using not_lt.mp ha
      | succ k =>
        have := ih
        rw [hfl] at this
        simpa [cumBelow, List.getD_cons_succ] using this

theorem window_disjoint (l : List α) (hl : l.Pairwise (· < ·)) (off : α)
    {i j : ℕ} (hj : j < l.length) (hij : i < j)
    (h2 : off < l.getD i 0) (h3 : cumBelow l j ≤ off) : False := by
  have hj0 : j ≠ 0 := by omega
  have hcb : cumBelow l j = l.getD (j - 1) 0 := by simp [cumBelow, hj0]
  have hmono : l.getD i 0 ≤ l.getD (j - 1) 0 := pairwise_getD_mono l hl (by omega) (by omega)
  rw [hcb] at h3
  linarith

theorem window_unique (l : List α) (hl : l.Pairwise (· < ·)) (off : α)
    {i j : ℕ} (hi : i < l.length) (hj : j < l.length)
    (h1 : cumBelow l i ≤ off) (h2 : off < l.getD i 0)
    (h3 : cumBelow l j ≤ off) (h4 : off < l.getD j 0) : i = j := by
  rcases lt_trichotomy i j with h | h | h
  · exact absurd (window_disjoint l hl off hj h h2 h3) (fun f => f)
  · exact h
  · exact absurd (window_disjoint l hl off hi h h4 h1) (fun f => f)

/-! ### Construction: normalization and the cursor invariant -/

theorem cumulate_array_length (arr : List α) :
    (DashCursor.cumulate_array arr).length = arr.length :=
  cumulate_go_length 0 arr

theorem cumulate_array_ne_nil (arr : List α) (h : arr ≠ []) :
    DashCursor.cumulate_array arr ≠ [] := by
  intro he
  have hl := cumulate_array_length arr
  rw [he] at hl
  exact h (List.length_eq_zero.mp hl.symm)

theorem cumulate_array_getLastD (arr : List α) (h : arr ≠ []) :
    (DashCursor.cumulate_array arr).getLastD 0 = arr.sum := by
  have := cumulate_go_getLastD 0 0 arr h
  simpa [DashCursor.cumulate_array] using this

theorem cycle_pos (arr : List α) (hne : arr ≠ []) (hpos : ∀ x ∈ arr, 0 < x) :
    0 < (DashCursor.cumulate_array arr).getLastD 0 := by
  rw [cumulate_array_getLastD arr hne]
  exact List.sum_pos arr hpos hne

theorem cumulate_array_pairwise (arr : List α) (hpos : ∀ x ∈ arr, 0 < x) :
    (DashCursor.cumulate_array arr).Pairwise (· < ·) :=
  cumulate_go_pairwise 0 arr hpos

theorem cumulate_array_mem_pos (arr : List α) (hpos : ∀ x ∈ arr, 0 < x) :
    ∀ y ∈ DashCursor.cumulate_array arr, 0 < y :=
  cumulate_go_mem 0 arr hpos

theorem cumBelow_nonneg (l : List α) (hl : ∀ y ∈ l, 0 < y) (i : ℕ) :
    0 ≤ cumBelow l i := by
  unfold cumBelow
  split
  · exact le_refl 0
  · by_cases h : i - 1 < l.length
    · have hm : l.getD (i - 1) 0 ∈ l := by
        rw [getD_eq_getElem _ _ h]
        exact List.getElem_mem _
      exact le_of_lt (hl _ hm)
    · rw [List.getD_eq_getElem?_getD, List.getElem?_eq_none (by omega)]
      exact le_refl _

theorem normalized_window (arr : List α) (hne : arr ≠ []) (_hpos : ∀ x ∈ arr, 0 < x)
    (off : α) (h0 : 0 ≤ off) (h1 : off < (DashCursor.cumulate_array arr).getLastD 0) :
    find_index_go off (DashCursor.cumulate_array arr) <
      (DashCursor.cumulate_array arr).length ∧
    cumBelow (DashCursor.cumulate_array arr)
      (find_index_go off (DashCursor.cumulate_array arr)) ≤ off ∧
    off < (DashCursor.cumulate_array arr).getD
      (find_index_go off (DashCursor.cumulate_array arr)) 0 := by
  have hlt : find_index_go off (DashCursor.cumulate_array arr) <
      (DashCursor.cumulate_array arr).length :=
    find_index_go_lt_length off _
      ⟨(DashCursor.cumulate_array arr).getLastD 0,
        getLastD_mem _ (cumulate_array_ne_nil arr hne) 0, h1⟩
  exact ⟨hlt, find_index_go_cumBelow off h0 _, find_index_go_getD off _ hlt⟩

theorem new_cursorInv [FloorRing α] (options : DashOptions α)
    (hne : options.array ≠ []) (hpos : ∀ x ∈ options.array, 0 < x) :
    CursorInv (DashCursor.new options) := by
  have hcyc := cycle_pos options.array hne hpos
  have h0 : 0 ≤ rem_euclid options.initial_offset
      ((DashCursor.cumulate_array options.array).getLastD 0) :=
    rem_euclid_nonneg _ hcyc
  have h1 : rem_euclid options.initial_offset
      ((DashCursor.cumulate_array options.array).getLastD 0) <
      (DashCursor.cumulate_array options.array).getLastD 0 :=
    rem_euclid_lt _ hcyc
  obtain ⟨ha, hb, hc⟩ := normalized_window options.array hne hpos _ h0 h1
  exact ⟨rfl, hne, hpos, ha, hb, hc, ha, hb, hc⟩

/-- C2: for every valid pattern (non-empty, strictly positive lengths) and
every initial offset, after construction the cumulative array is strictly
increasing with last element the sum of the array, the normalized current
offset lies in `[0, cycle_length)`, and the current index is the unique
index whose cumulative window contains the offset (with the
`cumulative_array[-1] = 0` convention). -/
theorem dashCursor_new_normalization (offset : ℚ) (arr : List ℚ) (c : DashCursor ℚ)
    (hc : c = DashCursor.new ⟨offset, arr⟩)
    (hne : arr ≠ []) (hpos : ∀ x ∈ arr, 0 < x) :
    c.cumulative_array.Pairwise (· < ·) ∧
    c.cumulative_array.getLastD 0 = arr.sum ∧
    0 ≤ c.current_offset ∧
    c.current_offset < c.cumulative_array.getLastD 0 ∧
    c.current_index < c.cumulative_array.length ∧
    ∀ i < c.cumulative_array.length,
      ((cumBelow c.cumulative_array i ≤ c.current_offset ∧
        c.current_offset < c.cumulative_array.getD i 0) ↔ i = c.current_index) := by
  subst hc
  have hInv := new_cursorInv (⟨offset, arr⟩ : DashOptions ℚ) hne hpos
  obtain ⟨hca, -, -, hidx, hlow, hhigh, -, -, -⟩ := hInv
  have hpw : (DashCursor.new (⟨offset, arr⟩ : DashOptions ℚ)).cumulative_array.Pairwise
      (· < ·) := by
    rw [hca]
    exact cumulate_array_pairwise arr hpos
  have hcyc := cycle_pos arr hne hpos
  have h0 : 0 ≤ (DashCursor.new (⟨offset, arr⟩ : DashOptions ℚ)).current_offset :=
    rem_euclid_nonneg _ hcyc
  have h1 : (DashCursor.new (⟨offset, arr⟩ : DashOptions ℚ)).current_offset <
      (DashCursor.new (⟨offset, arr⟩ : DashOptions ℚ)).cumulative_array.getLastD 0 :=
    rem_euclid_lt _ hcyc
  refine ⟨hpw, ?_, h0, h1, hidx, ?_⟩
  · exact cumulate_array_getLastD arr hne
  · intro i hi
    constructor
    · intro ⟨hwl, hwh⟩
      exact window_unique _ hpw _ hi hidx hwl hwh hlow hhigh
    · intro he
      rw [he]
      exact ⟨hlow, hhigh⟩

/-- Witness for C2 at pattern `[1, 2]` and offset `0`. -/
theorem dashCursor_new_normalization_witness :
    0 ≤ (DashCursor.new (⟨0, [1, 2]⟩ : DashOptions ℚ)).current_offset :=
  (dashCursor_new_normalization 0 [1, 2] _ rfl (by simp) (by norm_num)).2.2.1

/-- C9: DashPattern construction fails exactly on an empty length list or a
list containing a non-positive element, producing no pattern value; it
succeeds, with the given fields, on every non-empty list of strictly
positive lengths. -/
theorem dashOptions_new_validation (offset : ℚ) (arr : List ℚ) :
    (DashOptions.new offset arr = none ↔ arr = [] ∨ ∃ x ∈ arr, x ≤ 0) ∧
    ((arr ≠ [] ∧ ∀ x ∈ arr, 0 < x) →
      DashOptions.new offset arr = some ⟨offset, arr⟩) := by
  constructor
  · constructor
    · intro h
      by_contra hcon
      push_neg at hcon
      obtain ⟨hne, hforall⟩ := hcon
      have he : arr.isEmpty = false := by
        cases arr with
        | nil => exact absurd rfl hne
        | cons a as => rfl
      have hf : arr.find? (fun x => decide (x ≤ 0)) = none :=
        List.find?_eq_none.mpr (fun x hx => by
          simpa using not_le.mpr (hforall x hx))
      rw [DashOptions.new] at h
      simp [he, hf] at h
    · intro h
      unfold DashOptions.new
      rcases h with rfl | ⟨x, hx, hpx⟩
      · simp
      · have hf : (arr.find? (fun x => decide (x ≤ 0))).isSome :=
          List.find?_isSome.mpr ⟨x, hx, by simpa using hpx⟩
        by_cases he : arr.isEmpty
        · simp [he]
        · simp [he, hf]
  · intro ⟨hne, hpos⟩
    have he : arr.isEmpty = false := by
      cases arr with
      | nil => exact absurd rfl hne
      | cons a as => rfl
    have hf : arr.find? (fun x => decide (x ≤ 0)) = none :=
      List.find?_eq_none.mpr (fun x hx => by
        simpa using not_le.mpr (hpos x hx))
    simp [DashOptions.new, he, hf]

/-- Witness for C9 at offset `0` and pattern `[1, 2]`. -/
theorem dashOptions_new_validation_witness :
    DashOptions.new (0 : ℚ) [1, 2] = some ⟨0, [1, 2]⟩ :=
  (dashOptions_new_validation 0 [1, 2]).2 ⟨by simp, by norm_num⟩

/-! ### The step function: case analysis and invariant preservation -/

/-- The local variable `distance_to_next` of `progress_by`: the distance left
in the current pattern segment. -/
def distance_to_next (c : DashCursor α) : α :=
  c.cumulative_array.getD c.current_index 0 - c.current_offset

theorem progress_by_cross_mid (c : DashCursor α) {d : α} (h : distance_to_next c ≤ d)
    (hmid : c.current_index < c.cumulative_array.length - 1) :
    c.progress_by d =
      ({ length := distance_to_next c
         remaining_distance := d - distance_to_next c
         dash_action_type := DashCursor.make_dash_action_type (c.current_index + 2) },
       { c with
           current_offset := c.cumulative_array.getD c.current_index 0
           current_index := c.current_index + 1 }) := by
  unfold distance_to_next at *
  simp only [DashCursor.progress_by]
  rw [if_pos h, if_pos hmid]

theorem progress_by_cross_last (c : DashCursor α) {d : α} (h : distance_to_next c ≤ d)
    (hlast : ¬ c.current_index < c.cumulative_array.length - 1) :
    c.progress_by d =
      ({ length := distance_to_next c
         remaining_distance := d - distance_to_next c
         dash_action_type := DashCursor.make_dash_action_type 1 },
       { c with current_index := 0, current_offset := 0 }) := by
  unfold distance_to_next at *
  simp only [DashCursor.progress_by]
  rw [if_pos h, if_neg hlast]

theorem progress_by_absorb (c : DashCursor α) {d : α} (h : ¬ distance_to_next c ≤ d) :
    c.progress_by d =
      ({ length := d
         remaining_distance := 0
         dash_action_type := DashCursor.make_dash_action_type c.current_index },
       { c with current_offset := c.current_offset + d }) := by
  unfold distance_to_next at *
  simp only [DashCursor.progress_by]
  rw [if_neg h]

theorem progress_by_fields (c : DashCursor α) (d : α) :
    (c.progress_by d).2.array = c.array ∧
    (c.progress_by d).2.cumulative_array = c.cumulative_array ∧
    (c.progress_by d).2.initial_offset = c.initial_offset ∧
    (c.progress_by d).2.initial_index = c.initial_index := by
  by_cases h : distance_to_next c ≤ d
  · by_cases hmid : c.current_index < c.cumulative_array.length - 1
    · rw [progress_by_cross_mid c h hmid]
      exact ⟨rfl, rfl, rfl, rfl⟩
    · rw [progress_by_cross_last c h hmid]
      exact ⟨rfl, rfl, rfl, rfl⟩
  · rw [progress_by_absorb c h]
    exact ⟨rfl, rfl, rfl, rfl⟩

theorem progress_by_inv (c : DashCursor α) (hInv : CursorInv c) {d : α} (hd : 0 ≤ d) :
    CursorInv (c.progress_by d).2 := by
  have hInv2 := hInv
  obtain ⟨hca, hne, hpos, hidx, hlow, hhigh, hi1, hi2, hi3⟩ := hInv2
  have hpw : c.cumulative_array.Pairwise (· < ·) := by
    rw [hca]
    exact cumulate_array_pairwise c.array hpos
  by_cases h : distance_to_next c ≤ d
  · by_cases hmid : c.current_index < c.cumulative_array.length - 1
    · rw [progress_by_cross_mid c h hmid]
      refine ⟨hca, hne, hpos, ?_, ?_, ?_, hi1, hi2, hi3⟩
      · show c.current_index + 1 < c.cumulative_array.length
        omega
      · show cumBelow c.cumulative_array (c.current_index + 1) ≤
          c.cumulative_array.getD c.current_index 0
        simp [cumBelow]
      · show c.cumulative_array.getD c.current_index 0 <
          c.cumulative_array.getD (c.current_index + 1) 0
        have h1 : c.current_index < c.cumulative_array.length := hidx
        have h2 : c.current_index + 1 < c.cumulative_array.length := by omega
        have hstep := List.pairwise_iff_getElem.mp hpw c.current_index (c.current_index + 1)
          h1 h2 (by omega)
        rw [getD_eq_getElem _ _ h1, getD_eq_getElem _ _ h2]
        exact hstep
    · rw [progress_by_cross_last c h hmid]
      refine ⟨hca, hne, hpos, ?_, ?_, ?_, hi1, hi2, hi3⟩
      · show 0 < c.cumulative_array.length
        omega
      · show cumBelow c.cumulative_array 0 ≤ (0 : α)
        simp [cumBelow]
      · show (0 : α) < c.cumulative_array.getD 0 0
        have hlen : 0 < c.cumulative_array.length := by omega
        have hmem : c.cumulative_array.getD 0 0 ∈ c.cumulative_array := by
          rw [getD_eq_getElem _ _ hlen]
          exact List.getElem_mem _
        rw [hca] at hmem
        have := cumulate_array_mem_pos c.array hpos _ hmem
        rw [hca]
        exact this
  · rw [progress_by_absorb c h]
    unfold distance_to_next at h
    push_neg at h
    refine ⟨hca, hne, hpos, hidx, ?_, ?_, hi1, hi2, hi3⟩
    · show cumBelow c.cumulative_array c.current_index ≤ c.current_offset + d
      linarith
    · show c.current_offset + d < c.cumulative_array.getD c.current_index 0
      linarith

theorem progress_by_rem_cross (c : DashCursor α) {d : α} (h : distance_to_next c ≤ d) :
    (c.progress_by d).1.remaining_distance = d - distance_to_next c := by
  by_cases hmid : c.current_index < c.cumulative_array.length - 1
  · rw [progress_by_cross_mid c h hmid]
  · rw [progress_by_cross_last c h hmid]

theorem distance_to_next_pos (c : DashCursor α) (hInv : CursorInv c) :
    0 < distance_to_next c := by
  obtain ⟨-, -, -, -, -, hhigh, -, -, -⟩ := hInv
  unfold distance_to_next
  linarith

theorem progress_by_remaining (c : DashCursor α) (hInv : CursorInv c) {d : α} (hd : 0 ≤ d) :
    0 ≤ (c.progress_by d).1.remaining_distance ∧
    (c.progress_by d).1.remaining_distance ≤ d ∧
    (0 < d → (c.progress_by d).1.remaining_distance < d) := by
  have hdtn := distance_to_next_pos c hInv
  by_cases h : distance_to_next c ≤ d
  · rw [progress_by_rem_cross c h]
    exact ⟨by linarith, by linarith, fun _ => by linarith⟩
  · rw [progress_by_absorb c h]
    exact ⟨le_refl 0, hd, fun hpos => hpos⟩

theorem progress_by_accounting (c : DashCursor α) (hInv : CursorInv c) (d : α) :
    (c.progress_by d).2.current_offset + (c.progress_by d).1.remaining_distance =
      c.current_offset + d ∨
    (c.progress_by d).2.current_offset + (c.progress_by d).1.remaining_distance +
      c.cumulative_array.getLastD 0 = c.current_offset + d := by
  have hInv2 := hInv
  obtain ⟨hca, hne, hpos, hidx, hlow, hhigh, -, -, -⟩ := hInv2
  by_cases h : distance_to_next c ≤ d
  · by_cases hmid : c.current_index < c.cumulative_array.length - 1
    · left
      rw [progress_by_cross_mid c h hmid]
      show c.cumulative_array.getD c.current_index 0 + (d - distance_to_next c) =
        c.current_offset + d
      unfold distance_to_next
      ring
    · right
      rw [progress_by_cross_last c h hmid]
      show 0 + (d - distance_to_next c) + c.cumulative_array.getLastD 0 =
        c.current_offset + d
      have hlen : c.cumulative_array ≠ [] := by
        intro he
        rw [he] at hidx
        simp at hidx
      have hi : c.current_index = c.cumulative_array.length - 1 := by omega
      have hgl : c.cumulative_array.getLastD 0 =
          c.cumulative_array.getD c.current_index 0 := by
        rw [getLastD_eq_getD _ hlen 0, hi]
      rw [hgl]
      unfold distance_to_next
      ring
  · left
    rw [progress_by_absorb c h]
    show c.current_offset + d + 0 = c.current_offset + d
    ring

/-- A cursor state sitting exactly at the lower edge of its current pattern
segment (the state left behind by every boundary crossing). -/
def Aligned (c : DashCursor α) : Prop :=
  c.current_offset = cumBelow c.cumulative_array c.current_index

theorem progress_by_cross_aligned (c : DashCursor α) {d : α}
    (h : distance_to_next c ≤ d) : Aligned (c.progress_by d).2 := by
  by_cases hmid : c.current_index < c.cumulative_array.length - 1
  · rw [progress_by_cross_mid c h hmid]
    show c.cumulative_array.getD c.current_index 0 =
      cumBelow c.cumulative_array (c.current_index + 1)
    simp [cumBelow]
  · rw [progress_by_cross_last c h hmid]
    show (0 : α) = cumBelow c.cumulative_array 0
    simp [cumBelow]

theorem cumulate_sub_cumBelow (arr : List α) (i : ℕ) (h : i < arr.length) :
    (DashCursor.cumulate_array arr).getD i 0 - cumBelow (DashCursor.cumulate_array arr) i =
      arr.getD i 0 := by
  have hgd : (DashCursor.cumulate_array arr).getD i 0 = 0 + (arr.take (i + 1)).sum :=
    cumulate_go_getD 0 arr i h
  have hcb : cumBelow (DashCursor.cumulate_array arr) i = (arr.take i).sum := by
    cases i with
    | zero => simp [cumBelow]
    | succ j =>
      have hj : j < arr.length := by omega
      have hc : cumBelow (DashCursor.cumulate_array arr) (j + 1) =
          (DashCursor.cumulate_array arr).getD j 0 := by simp [cumBelow]
      have hgj : (DashCursor.cumulate_array arr).getD j 0 = 0 + (arr.take (j + 1)).sum :=
        cumulate_go_getD 0 arr j hj
      rw [hc, hgj]
      simp
  rw [hgd, hcb, List.sum_take_succ arr i h, getD_eq_getElem _ _ h]
  ring

theorem aligned_distance_to_next (c : DashCursor α)
    (hca : c.cumulative_array = DashCursor.cumulate_array c.array)
    (hidx : c.current_index < c.cumulative_array.length) (hal : Aligned c) :
    distance_to_next c = c.array.getD c.current_index 0 := by
  have hlen : c.current_index < c.array.length := by
    rw [hca, cumulate_array_length] at hidx
    exact hidx
  unfold distance_to_next
  rw [Aligned] at hal
  rw [hal, hca]
  exact cumulate_sub_cumBelow c.array c.current_index hlen

theorem exists_min_pos :
    ∀ (l : List α), l ≠ [] → (∀ x ∈ l, 0 < x) → ∃ m, 0 < m ∧ ∀ x ∈ l, m ≤ x := by
  intro l
  induction l with
  | nil =>
    intro h _
    exact absurd rfl h
  | cons a t ih =>
    intro _ hpos
    cases t with
    | nil => exact ⟨a, hpos a (by simp), by simp⟩
    | cons b s =>
      obtain ⟨m, hm, hle⟩ := ih (by simp) (fun x hx => hpos x (by simp [hx]))
      refine ⟨min a m, lt_min (hpos a (by simp)) hm, ?_⟩
      intro x hx
      rcases List.mem_cons.mp hx with rfl | hx2
      · exact min_le_left _ _
      · exact le_trans (min_le_right _ _) (hle x hx2)

theorem chainStep_fst (c : DashCursor α) (r : α) :
    (chainStep (c, r)).1 = (c.progress_by r).2 := rfl

theorem chainStep_snd (c : DashCursor α) (r : α) :
    (chainStep (c, r)).2 = (c.progress_by r).1.remaining_distance := rfl

theorem reset_inv (c : DashCursor α) (hInv : CursorInv c) : CursorInv c.reset := by
  obtain ⟨hca, hne, hpos, -, -, -, hi1, hi2, hi3⟩ := hInv
  exact ⟨hca, hne, hpos, hi1, hi2, hi3, hi1, hi2, hi3⟩

theorem reset_fields {β : Type} (c : DashCursor β) :
    c.reset.array = c.array ∧
    c.reset.cumulative_array = c.cumulative_array ∧
    c.reset.initial_offset = c.initial_offset ∧
    c.reset.initial_index = c.initial_index ∧
    c.reset.current_offset = c.initial_offset ∧
    c.reset.current_index = c.initial_index :=
  ⟨rfl, rfl, rfl, rfl, rfl, rfl⟩

/-! ### Chained calls: preservation, accounting, termination -/

theorem chain_iterate_preserved (c : DashCursor α) (r : α) (hInv : CursorInv c)
    (hr : 0 ≤ r) (n : ℕ) :
    CursorInv ((chainStep^[n]) (c, r)).1 ∧ 0 ≤ ((chainStep^[n]) (c, r)).2 ∧
    ((chainStep^[n]) (c, r)).1.array = c.array ∧
    ((chainStep^[n]) (c, r)).1.cumulative_array = c.cumulative_array := by
  induction n with
  | zero => exact ⟨hInv, hr, rfl, rfl⟩
  | succ n ih =>
    obtain ⟨ih1, ih2, ih3, ih4⟩ := ih
    rw [Function.iterate_succ_apply']
    have h1 : (chainStep ((chainStep^[n]) (c, r))).1 =
        (((chainStep^[n]) (c, r)).1.progress_by ((chainStep^[n]) (c, r)).2).2 := rfl
    have h2 : (chainStep ((chainStep^[n]) (c, r))).2 =
        (((chainStep^[n]) (c, r)).1.progress_by
          ((chainStep^[n]) (c, r)).2).1.remaining_distance := rfl
    refine ⟨?_, ?_, ?_, ?_⟩
    · rw [h1]
      exact progress_by_inv _ ih1 ih2
    · rw [h2]
      exact (progress_by_remaining _ ih1 ih2).1
    · rw [h1, (progress_by_fields _ _).1]
      exact ih3
    · rw [h1, (progress_by_fields _ _).2.1]
      exact ih4

theorem chain_terminates_aligned (m : α) :
    ∀ (N : ℕ) (c : DashCursor α) (r : α), CursorInv c → (∀ x ∈ c.array, m ≤ x) →
      Aligned c → 0 ≤ r → r ≤ N * m →
      ∃ n, ((chainStep^[n]) (c, r)).2 = 0 := by
  intro N
  induction N with
  | zero =>
    intro c r _ _ _ hr0 hrN
    refine ⟨0, ?_⟩
    have : r = 0 := le_antisymm (by simpa using hrN) hr0
    exact this
  | succ N ih =>
    intro c r hInv hmle hal hr0 hrN
    by_cases hr : r = 0
    · exact ⟨0, hr⟩
    have hrpos : 0 < r := lt_of_le_of_ne hr0 (Ne.symm hr)
    have hInv2 := hInv
    obtain ⟨hca, hne, hpos, hidx, hlow, hhigh, -, -, -⟩ := hInv2
    by_cases h : distance_to_next c ≤ r
    · have hstep2 : (chainStep (c, r)).2 = r - distance_to_next c := by
        rw [chainStep_snd, progress_by_rem_cross c h]
      have hInv' : CursorInv (chainStep (c, r)).1 := by
        rw [chainStep_fst]
        exact progress_by_inv c hInv hr0
      have harr' : (chainStep (c, r)).1.array = c.array := by
        rw [chainStep_fst]
        exact (progress_by_fields c r).1
      have hal' : Aligned (chainStep (c, r)).1 := by
        rw [chainStep_fst]
        exact progress_by_cross_aligned c h
      have hdtn : distance_to_next c = c.array.getD c.current_index 0 :=
        aligned_distance_to_next c hca hidx hal
      have hilen : c.current_index < c.array.length := by
        rw [hca, cumulate_array_length] at hidx
        exact hidx
      have hcmem : c.array.getD c.current_index 0 ∈ c.array := by
        rw [getD_eq_getElem _ _ hilen]
        exact List.getElem_mem _
      have hmd : m ≤ distance_to_next c := by
        rw [hdtn]
        exact hmle _ hcmem
      have hr0' : 0 ≤ r - distance_to_next c := by linarith
      have hrN' : r - distance_to_next c ≤ N * m := by
        have hcast : ((N + 1 : ℕ) : α) * m = (N : α) * m + m := by
          push_cast
          ring
        rw [hcast] at hrN
        linarith
      obtain ⟨n, hn⟩ := ih (chainStep (c, r)).1 (chainStep (c, r)).2 hInv'
        (by rw [harr']; exact hmle) hal' (by rw [hstep2]; exact hr0')
        (by rw [hstep2]; exact hrN')
      refine ⟨n + 1, ?_⟩
      rw [Function.iterate_succ_apply]
      rw [show ((chainStep (c, r)).1, (chainStep (c, r)).2) = chainStep (c, r) from rfl] at hn
      exact hn
    · refine ⟨1, ?_⟩
      have : (chainStep (c, r)).2 = 0 := by
        rw [chainStep_snd, progress_by_absorb c h]
      simpa using this

theorem chain_terminates [Archimedean α] (c : DashCursor α) (r : α)
    (hInv : CursorInv c) (hr : 0 ≤ r) :
    ∃ n, ((chainStep^[n]) (c, r)).2 = 0 := by
  by_cases hr0 : r = 0
  · exact ⟨0, hr0⟩
  have hrpos : 0 < r := lt_of_le_of_ne hr (Ne.symm hr0)
  have hInv2 := hInv
  obtain ⟨hca, hne, hpos, hidx, hlow, hhigh, -, -, -⟩ := hInv2
  by_cases h : distance_to_next c ≤ r
  · have hInv' : CursorInv (chainStep (c, r)).1 := by
      rw [chainStep_fst]
      exact progress_by_inv c hInv hr
    have hal' : Aligned (chainStep (c, r)).1 := by
      rw [chainStep_fst]
      exact progress_by_cross_aligned c h
    have harr' : (chainStep (c, r)).1.array = c.array := by
      rw [chainStep_fst]
      exact (progress_by_fields c r).1
    obtain ⟨m, hm, hmle⟩ := exists_min_pos c.array hne hpos
    have hr2 : 0 ≤ (chainStep (c, r)).2 := by
      rw [chainStep_snd, progress_by_rem_cross c h]
      linarith
    obtain ⟨N, hN⟩ := Archimedean.arch (chainStep (c, r)).2 hm
    rw [nsmul_eq_mul] at hN
    obtain ⟨n, hn⟩ := chain_terminates_aligned m N (chainStep (c, r)).1
      (chainStep (c, r)).2 hInv' (by rw [harr']; exact hmle) hal' hr2 hN
    refine ⟨n + 1, ?_⟩
    rw [Function.iterate_succ_apply]
    rw [show ((chainStep (c, r)).1, (chainStep (c, r)).2) = chainStep (c, r) from rfl] at hn
    exact hn
  · refine ⟨1, ?_⟩
    have : (chainStep (c, r)).2 = 0 := by
      rw [chainStep_snd, progress_by_absorb c h]
    simpa using this

/-! ### Operation sequences -/

theorem applyOp_inv (c : DashCursor α) (hInv : CursorInv c) (op : CursorOp α)
    (hop : ∀ d, op = CursorOp.progress d → 0 ≤ d) : CursorInv (applyOp c op) := by
  cases op with
  | progress d => exact progress_by_inv c hInv (hop d rfl)
  | reset => exact reset_inv c hInv

theorem applyOps_inv (ops : List (CursorOp α)) :
    ∀ (c : DashCursor α), CursorInv c →
      (∀ d, CursorOp.progress d ∈ ops → 0 ≤ d) → CursorInv (applyOps c ops) := by
  induction ops with
  | nil =>
    intro c h _
    exact h
  | cons op ops ih =>
    intro c h hops
    have hfold : applyOps c (op :: ops) = applyOps (applyOp c op) ops := rfl
    rw [hfold]
    refine ih _ (applyOp_inv c h op ?_) (fun d hd => hops d (List.mem_cons_of_mem _ hd))
    intro d hd
    subst hd
    exact hops d (List.mem_cons_self _ _)

theorem applyOp_static (c : DashCursor α) (op : CursorOp α) :
    (applyOp c op).array = c.array ∧
    (applyOp c op).cumulative_array = c.cumulative_array ∧
    (applyOp c op).initial_offset = c.initial_offset ∧
    (applyOp c op).initial_index = c.initial_index := by
  cases op with
  | progress d => exact progress_by_fields c d
  | reset => exact ⟨rfl, rfl, rfl, rfl⟩

theorem applyOps_static (ops : List (CursorOp α)) :
    ∀ (c : DashCursor α),
      (applyOps c ops).array = c.array ∧
      (applyOps c ops).cumulative_array = c.cumulative_array ∧
      (applyOps c ops).initial_offset = c.initial_offset ∧
      (applyOps c ops).initial_index = c.initial_index := by
  induction ops with
  | nil =>
    intro c
    exact ⟨rfl, rfl, rfl, rfl⟩
  | cons op ops ih =>
    intro c
    have hfold : applyOps c (op :: ops) = applyOps (applyOp c op) ops := rfl
    obtain ⟨s1, s2, s3, s4⟩ := applyOp_static c op
    obtain ⟨t1, t2, t3, t4⟩ := ih (applyOp c op)
    rw [hfold]
    exact ⟨t1.trans s1, t2.trans s2, t3.trans s3, t4.trans s4⟩

/-! ### Claim theorems about the cursor -/

/-- C1: whenever a progress_by call crosses a pattern-segment boundary
(`distance_to_next <= requested distance`) and the pattern array — of the
same length as the cumulative array — has an even number of elements, the
returned kind is the parity classification of the segment that was active
before the crossing, even though the code computes it as the parity of
`current_index + 1` after the index update. -/
theorem progress_by_cross_kind_even (c : DashCursor ℚ) (d : ℚ)
    (hlen : c.cumulative_array.length = c.array.length)
    (heven : Even c.array.length)
    (hidx : c.current_index < c.cumulative_array.length)
    (hcross : distance_to_next c ≤ d) :
    (c.progress_by d).1.dash_action_type =
      DashCursor.make_dash_action_type c.current_index := by
  by_cases hmid : c.current_index < c.cumulative_array.length - 1
  · rw [progress_by_cross_mid c hcross hmid]
    show DashCursor.make_dash_action_type (c.current_index + 2) =
      DashCursor.make_dash_action_type c.current_index
    unfold DashCursor.make_dash_action_type
    have hmod : (c.current_index + 2) % 2 = c.current_index % 2 := by omega
    rw [hmod]
  · rw [progress_by_cross_last c hcross hmid]
    show DashCursor.make_dash_action_type 1 =
      DashCursor.make_dash_action_type c.current_index
    obtain ⟨k, hk⟩ := heven
    have hmod : c.current_index % 2 = 1 := by omega
    unfold DashCursor.make_dash_action_type
    rw [hmod]

/-- Witness for C1: the pattern `[1, 2]` cursor at index 0 crossing its first
boundary reports Dash, the parity of the pre-update index 0. -/
theorem progress_by_cross_kind_even_witness :
    ((⟨[1, 2], [1, 3], 0, 0, 0, 0⟩ : DashCursor ℚ).progress_by 2).1.dash_action_type =
      DashCursor.make_dash_action_type 0 :=
  progress_by_cross_kind_even ⟨[1, 2], [1, 3], 0, 0, 0, 0⟩ 2 rfl ⟨1, by norm_num⟩
    (by norm_num) (by norm_num [distance_to_next])

/-- C3: for the cursor built from pattern `[1, 2]` with offset 0,
progress_by(0.5) yields length 0.5, no remainder, kind Dash; progress_by(1.5)
yields length 1, remainder 0.5, kind Dash; and the follow-up progress_by(0.5)
yields length 0.5, no remainder, kind Gap. -/
theorem cursor_concrete_actions :
    ((DashCursor.new (⟨0, [1, 2]⟩ : DashOptions ℚ)).progress_by (1/2)).1 =
      { length := 1/2, remaining_distance := 0,
        dash_action_type := DashActionType.Dash } ∧
    ((DashCursor.new (⟨0, [1, 2]⟩ : DashOptions ℚ)).progress_by (3/2)).1 =
      { length := 1, remaining_distance := 1/2,
        dash_action_type := DashActionType.Dash } ∧
    (((DashCursor.new (⟨0, [1, 2]⟩ : DashOptions ℚ)).progress_by (3/2)).2.progress_by
        (1/2)).1 =
      { length := 1/2, remaining_distance := 0,
        dash_action_type := DashActionType.Gap } := by
  refine ⟨?_, ?_, ?_⟩ <;>
    norm_num [DashCursor.new, DashCursor.cumulate_array, cumulate_go, rem_euclid,
      DashCursor.find_index_in_cumulative_array, find_index_go, DashCursor.progress_by,
      DashCursor.make_dash_action_type, List.getLastD, List.getD]

/-- C5: starting from any cursor constructed from a valid pattern, every
sequence of progress_by calls with non-negative arguments and reset calls
keeps the index inside the array and the offset inside `[0, cycle_length)`
and below the current cumulative bound. -/
theorem cursor_ops_invariant (offset : ℚ) (arr : List ℚ)
    (hne : arr ≠ []) (hpos : ∀ x ∈ arr, 0 < x)
    (ops : List (CursorOp ℚ)) (hops : ∀ d, CursorOp.progress d ∈ ops → 0 ≤ d)
    (c : DashCursor ℚ) (hc : c = applyOps (DashCursor.new ⟨offset, arr⟩) ops) :
    c.current_index < c.array.length ∧
    c.current_offset ≤ c.cumulative_array.getD c.current_index 0 ∧
    0 ≤ c.current_offset ∧
    c.current_offset < c.cumulative_array.getLastD 0 := by
  subst hc
  have hInv0 := new_cursorInv (⟨offset, arr⟩ : DashOptions ℚ) hne hpos
  have hInv := applyOps_inv ops _ hInv0 hops
  obtain ⟨hca, hne2, hpos2, hidx, hlow, hhigh, -, -, -⟩ := hInv
  have hpw : (applyOps (DashCursor.new ⟨offset, arr⟩) ops).cumulative_array.Pairwise
      (· < ·) := by
    rw [hca]
    exact cumulate_array_pairwise _ hpos2
  refine ⟨?_, le_of_lt hhigh, ?_, ?_⟩
  · have := hidx
    rw [hca, cumulate_array_length] at this
    exact this
  · have hcb : 0 ≤ cumBelow (applyOps (DashCursor.new ⟨offset, arr⟩) ops).cumulative_array
        (applyOps (DashCursor.new ⟨offset, arr⟩) ops).current_index := by
      apply cumBelow_nonneg
      rw [hca]
      exact cumulate_array_mem_pos _ hpos2
    linarith
  · exact lt_of_lt_of_le hhigh (pairwise_getD_le_getLastD _ hpw hidx)

/-- Witness for C5: pattern `[1, 2]`, offset 0, operations
progress 1.5, reset, progress 0.5. -/
theorem cursor_ops_invariant_witness :
    0 ≤ (applyOps (DashCursor.new (⟨0, [1, 2]⟩ : DashOptions ℚ))
      [CursorOp.progress (3/2), CursorOp.reset, CursorOp.progress (1/2)]).current_offset :=
  (cursor_ops_invariant 0 [1, 2] (by simp) (by norm_num)
    [CursorOp.progress (3/2), CursorOp.reset, CursorOp.progress (1/2)]
    (by
      intro d hd
      simp only [List.mem_cons, List.not_mem_nil, or_false] at hd
      rcases hd with h | h | h <;> first
        | (injection h with h2; rw [h2]; norm_num)
        | exact absurd h (by simp)) _ rfl).2.2.1

/-- C6: after any sequence of advance calls, reset restores exactly the
post-construction current offset and index, and reset is idempotent. -/
theorem reset_restores_initial (offset : ℚ) (arr : List ℚ) (ds : List ℚ)
    (c0 : DashCursor ℚ) (hc0 : c0 = DashCursor.new ⟨offset, arr⟩)
    (c : DashCursor ℚ) (hc : c = applyOps c0 (ds.map CursorOp.progress)) :
    (c.reset.current_offset = c0.current_offset ∧
     c.reset.current_index = c0.current_index) ∧
    c.reset.reset = c.reset := by
  subst hc0
  subst hc
  obtain ⟨-, -, hio, hii⟩ :=
    applyOps_static (ds.map CursorOp.progress) (DashCursor.new ⟨offset, arr⟩)
  refine ⟨⟨?_, ?_⟩, rfl⟩
  · show (applyOps (DashCursor.new ⟨offset, arr⟩) (ds.map CursorOp.progress)).initial_offset =
      (DashCursor.new ⟨offset, arr⟩).current_offset
    rw [hio]
    rfl
  · show (applyOps (DashCursor.new ⟨offset, arr⟩) (ds.map CursorOp.progress)).initial_index =
      (DashCursor.new ⟨offset, arr⟩).current_index
    rw [hii]
    rfl

/-- Witness for C6: pattern `[1, 2]`, offset 0, advances by 1.5 and 0.25. -/
theorem reset_restores_initial_witness :
    (applyOps (DashCursor.new (⟨0, [1, 2]⟩ : DashOptions ℚ))
        ([3/2, 1/4].map CursorOp.progress)).reset.current_offset =
      (DashCursor.new (⟨0, [1, 2]⟩ : DashOptions ℚ)).current_offset :=
  (reset_restores_initial 0 [1, 2] [3/2, 1/4] _ rfl _ rfl).1.1

/-- C10: on a reachable state (offset strictly below the current cumulative
bound), progress_by(0) consumes nothing, reports no remainder and the parity
kind of the current index, and leaves the cursor unchanged. -/
theorem progress_by_zero_identity (c : DashCursor ℚ)
    (h : c.current_offset < c.cumulative_array.getD c.current_index 0) :
    c.progress_by 0 =
      ({ length := 0, remaining_distance := 0,
         dash_action_type := DashCursor.make_dash_action_type c.current_index }, c) := by
  have habs : ¬ distance_to_next c ≤ (0 : ℚ) := by
    unfold distance_to_next
    linarith
  rw [progress_by_absorb c habs]
  have hcfix : ({ c with current_offset := c.current_offset + 0 } : DashCursor ℚ) = c := by
    ext <;> simp
  rw [hcfix]

/-- Witness for C10 on the pattern `[1, 2]` cursor at its initial state. -/
theorem progress_by_zero_identity_witness :
    (⟨[1, 2], [1, 3], 0, 0, 0, 0⟩ : DashCursor ℚ).progress_by 0 =
      ({ length := 0, remaining_distance := 0,
         dash_action_type := DashCursor.make_dash_action_type 0 },
       ⟨[1, 2], [1, 3], 0, 0, 0, 0⟩) :=
  progress_by_zero_identity ⟨[1, 2], [1, 3], 0, 0, 0, 0⟩
    (by norm_num [List.getD_cons_zero])

/-! ### Full-cycle wraparound -/

theorem chain_iterate_accounting (c : DashCursor α) (r : α) (hInv : CursorInv c)
    (hr : 0 ≤ r) (n : ℕ) :
    ∃ k : ℕ, ((chainStep^[n]) (c, r)).1.current_offset + ((chainStep^[n]) (c, r)).2 +
      (k : α) * c.cumulative_array.getLastD 0 = c.current_offset + r := by
  induction n with
  | zero =>
    refine ⟨0, ?_⟩
    simp
  | succ n ih =>
    obtain ⟨k, hk⟩ := ih
    obtain ⟨hInvn, hrn, -, hcan⟩ := chain_iterate_preserved c r hInv hr n
    rw [Function.iterate_succ_apply']
    have h1 : (chainStep ((chainStep^[n]) (c, r))).1 =
        (((chainStep^[n]) (c, r)).1.progress_by ((chainStep^[n]) (c, r)).2).2 := rfl
    have h2 : (chainStep ((chainStep^[n]) (c, r))).2 =
        (((chainStep^[n]) (c, r)).1.progress_by
          ((chainStep^[n]) (c, r)).2).1.remaining_distance := rfl
    rcases progress_by_accounting ((chainStep^[n]) (c, r)).1 hInvn
        ((chainStep^[n]) (c, r)).2 with hacc | hacc
    · refine ⟨k, ?_⟩
      rw [h1, h2, hacc]
      exact hk
    · refine ⟨k + 1, ?_⟩
      rw [hcan] at hacc
      rw [h1, h2]
      push_cast
      linarith

/-- C7: for a cursor over an even-length pattern in any invariant-satisfying
state, the chain of progress_by calls that consumes exactly one cycle length
(feeding each remainder into the next call until it reaches 0) returns the
cursor to its starting index and offset. -/
theorem full_cycle_returns_start (c : DashCursor ℚ) (hInv : CursorInv c)
    (_heven : Even c.array.length) :
    ∃ n, ((chainStep^[n]) (c, c.cumulative_array.getLastD 0)).2 = 0 ∧
      ((chainStep^[n]) (c, c.cumulative_array.getLastD 0)).1.current_index =
        c.current_index ∧
      ((chainStep^[n]) (c, c.cumulative_array.getLastD 0)).1.current_offset =
        c.current_offset := by
  have hInv2 := hInv
  obtain ⟨hca, hne, hpos, hidx, hlow, hhigh, -, -, -⟩ := hInv2
  have hpw : c.cumulative_array.Pairwise (· < ·) := by
    rw [hca]
    exact cumulate_array_pairwise _ hpos
  have hcyc : 0 < c.cumulative_array.getLastD 0 := by
    rw [hca]
    exact cycle_pos c.array hne hpos
  obtain ⟨n, hn⟩ :=
    chain_terminates c (c.cumulative_array.getLastD 0) hInv (le_of_lt hcyc)
  obtain ⟨k, hk⟩ :=
    chain_iterate_accounting c (c.cumulative_array.getLastD 0) hInv (le_of_lt hcyc) n
  obtain ⟨hInvn, hrn, harrn, hcan⟩ :=
    chain_iterate_preserved c (c.cumulative_array.getLastD 0) hInv (le_of_lt hcyc) n
  set s := (chainStep^[n]) (c, c.cumulative_array.getLastD 0) with hs
  have hInvn2 := hInvn
  obtain ⟨hcan2, hnen, hposn, hidxn, hlown, hhighn, -, -, -⟩ := hInvn2
  have hpwn : s.1.cumulative_array.Pairwise (· < ·) := by
    rw [hcan2]
    exact cumulate_array_pairwise _ hposn
  have h0n : 0 ≤ s.1.current_offset := by
    refine le_trans (cumBelow_nonneg _ ?_ _) hlown
    rw [hcan2]
    exact cumulate_array_mem_pos _ hposn
  have h1n : s.1.current_offset < c.cumulative_array.getLastD 0 := by
    have h := lt_of_lt_of_le hhighn (pairwise_getD_le_getLastD _ hpwn hidxn)
    rw [hcan] at h
    exact h
  have h0 : 0 ≤ c.current_offset := by
    refine le_trans (cumBelow_nonneg _ ?_ _) hlow
    rw [hca]
    exact cumulate_array_mem_pos _ hpos
  have h1 : c.current_offset < c.cumulative_array.getLastD 0 :=
    lt_of_lt_of_le hhigh (pairwise_getD_le_getLastD _ hpw hidx)
  rw [hn] at hk
  have hk1 : k = 1 := by
    by_contra hk1
    rcases Nat.lt_or_ge k 1 with hlt | hge
    · have hz : k = 0 := by omega
      subst hz
      simp only [Nat.cast_zero, zero_mul, add_zero] at hk
      linarith
    · have h2 : 2 ≤ k := by omega
      have h2c : (2 : ℚ) ≤ (k : ℚ) := by exact_mod_cast h2
      have hmul : (2 : ℚ) * (c.cumulative_array.getLastD 0) ≤
          (k : ℚ) * (c.cumulative_array.getLastD 0) :=
        mul_le_mul_of_nonneg_right h2c (le_of_lt hcyc)
      linarith
  subst hk1
  push_cast at hk
  have hoff : s.1.current_offset = c.current_offset := by linarith
  refine ⟨n, hn, ?_, hoff⟩
  have hwl : cumBelow c.cumulative_array s.1.current_index ≤ c.current_offset := by
    rw [hcan, hoff] at hlown
    exact hlown
  have hwh : c.current_offset < c.cumulative_array.getD s.1.current_index 0 := by
    rw [hcan, hoff] at hhighn
    exact hhighn
  have hidxn2 : s.1.current_index < c.cumulative_array.length := by
    rw [hcan] at hidxn
    exact hidxn
  exact window_unique c.cumulative_array hpw c.current_offset hidxn2 hidx hwl hwh hlow hhigh

/-- Witness for C7: the pattern `[1, 2]` cursor at its initial state. -/
theorem full_cycle_returns_start_witness :
    ∃ n, ((chainStep^[n]) ((⟨[1, 2], [1, 3], 0, 0, 0, 0⟩ : DashCursor ℚ),
        (⟨[1, 2], [1, 3], 0, 0, 0, 0⟩ : DashCursor ℚ).cumulative_array.getLastD 0)).2 = 0 ∧
      ((chainStep^[n]) ((⟨[1, 2], [1, 3], 0, 0, 0, 0⟩ : DashCursor ℚ),
        (⟨[1, 2], [1, 3], 0, 0, 0, 0⟩ : DashCursor ℚ).cumulative_array.getLastD
          0)).1.current_index = 0 ∧
      ((chainStep^[n]) ((⟨[1, 2], [1, 3], 0, 0, 0, 0⟩ : DashCursor ℚ),
        (⟨[1, 2], [1, 3], 0, 0, 0, 0⟩ : DashCursor ℚ).cumulative_array.getLastD
          0)).1.current_offset = 0 :=
  full_cycle_returns_start ⟨[1, 2], [1, 3], 0, 0, 0, 0⟩
    (by
      refine ⟨?_, ?_, ?_, ?_, ?_, ?_, ?_, ?_, ?_⟩
      · norm_num [DashCursor.cumulate_array, cumulate_go]
      · exact List.cons_ne_nil _ _
      · norm_num
      · simp
      · norm_num [cumBelow]
      · norm_num [List.getD_cons_zero]
      · simp
      · norm_num [cumBelow]
      · norm_num [List.getD_cons_zero])
    ⟨1, by norm_num⟩

/-! ### The dash-production loop of handle_line -/

theorem inner_line_loop_chain (st : FlattenedEventIterator) :
    (st.inner_line_loop.2.cursor, st.inner_line_loop.2.remaining_distance) =
      chainStep (st.cursor, st.remaining_distance) := by
  unfold FlattenedEventIterator.inner_line_loop
  cases hA : (st.cursor.progress_by st.remaining_distance).1.dash_action_type <;>
    simp [hA, chainStep]

theorem line_loop_step (n : ℕ) (st : FlattenedEventIterator)
    (hpos : 0 < st.remaining_distance) :
    FlattenedEventIterator.line_loop (n + 1) st =
      (st.inner_line_loop.1 ::
        (FlattenedEventIterator.line_loop n st.inner_line_loop.2).1,
       (FlattenedEventIterator.line_loop n st.inner_line_loop.2).2) := by
  have h : FlattenedEventIterator.line_loop (n + 1) st =
      (if 0 < st.remaining_distance then
        (st.inner_line_loop.1 ::
          (FlattenedEventIterator.line_loop n st.inner_line_loop.2).1,
         (FlattenedEventIterator.line_loop n st.inner_line_loop.2).2)
      else ([], st)) := rfl
  rw [h, if_pos hpos]

theorem line_loop_stop (n : ℕ) (st : FlattenedEventIterator)
    (h : ¬ 0 < st.remaining_distance) :
    FlattenedEventIterator.line_loop n st = ([], st) := by
  cases n with
  | zero => rfl
  | succ n =>
    have heq : FlattenedEventIterator.line_loop (n + 1) st =
        (if 0 < st.remaining_distance then
          (st.inner_line_loop.1 ::
            (FlattenedEventIterator.line_loop n st.inner_line_loop.2).1,
           (FlattenedEventIterator.line_loop n st.inner_line_loop.2).2)
        else ([], st)) := rfl
    rw [heq, if_neg h]

theorem line_loop_rem_zero :
    ∀ (n : ℕ) (st : FlattenedEventIterator), CursorInv st.cursor →
      0 ≤ st.remaining_distance →
      ((chainStep^[n]) (st.cursor, st.remaining_distance)).2 = 0 →
      (FlattenedEventIterator.line_loop n st).2.remaining_distance = 0 := by
  intro n
  induction n with
  | zero =>
    intro st _ _ h
    exact h
  | succ n ih =>
    intro st hInv hr h
    by_cases hpos : 0 < st.remaining_distance
    · rw [line_loop_step n st hpos]
      have hcur : st.inner_line_loop.2.cursor =
          (chainStep (st.cursor, st.remaining_distance)).1 :=
        congrArg Prod.fst (inner_line_loop_chain st)
      have hrem : st.inner_line_loop.2.remaining_distance =
          (chainStep (st.cursor, st.remaining_distance)).2 :=
        congrArg Prod.snd (inner_line_loop_chain st)
      apply ih
      · rw [hcur, chainStep_fst]
        exact progress_by_inv _ hInv hr
      · rw [hrem, chainStep_snd]
        exact (progress_by_remaining _ hInv hr).1
      · rw [inner_line_loop_chain st, ← Function.iterate_succ_apply]
        exact h
    · rw [line_loop_stop (n + 1) st hpos]
      exact le_antisymm (not_lt.mp hpos) hr

/-- C8: the dash-production loop of handle_line terminates for every cursor
state satisfying the invariant of a valid pattern: an iteration started with
positive remaining distance strictly decreases it, and some finite fuel
drives the remaining distance of the loop state to 0. -/
theorem handle_line_terminates (st : FlattenedEventIterator) (line : LineSegment)
    (hInv : CursorInv st.cursor) :
    (∀ st2 : FlattenedEventIterator, CursorInv st2.cursor →
      0 < st2.remaining_distance →
      st2.inner_line_loop.2.remaining_distance < st2.remaining_distance) ∧
    ∃ n, (FlattenedEventIterator.line_loop n
      (st.init_line_loop line)).2.remaining_distance = 0 := by
  constructor
  · intro st2 hInv2 hpos
    have hrem : st2.inner_line_loop.2.remaining_distance =
        (chainStep (st2.cursor, st2.remaining_distance)).2 :=
      congrArg Prod.snd (inner_line_loop_chain st2)
    rw [hrem, chainStep_snd]
    exact (progress_by_remaining _ hInv2 (le_of_lt hpos)).2.2 hpos
  · have hcur : (st.init_line_loop line).cursor = st.cursor := rfl
    have hrem : (st.init_line_loop line).remaining_distance = line.length := rfl
    have hr0 : 0 ≤ (st.init_line_loop line).remaining_distance := by
      rw [hrem]
      exact Real.sqrt_nonneg _
    have hInv2 : CursorInv (st.init_line_loop line).cursor := by
      rw [hcur]
      exact hInv
    obtain ⟨n, hn⟩ := chain_terminates (st.init_line_loop line).cursor
      (st.init_line_loop line).remaining_distance hInv2 hr0
    exact ⟨n, line_loop_rem_zero n _ hInv2 hr0 hn⟩

/-- Witness for C8 on the pattern `[1, 2]` cursor and the unit-length
horizontal line. -/
theorem handle_line_terminates_witness :
    (∀ st2 : FlattenedEventIterator, CursorInv st2.cursor →
      0 < st2.remaining_distance →
      st2.inner_line_loop.2.remaining_distance < st2.remaining_distance) ∧
    ∃ n, (FlattenedEventIterator.line_loop n
      ((⟨⟨[1, 2], [1, 3], 0, 0, 0, 0⟩, ⟨⟨0, 0⟩, ⟨0, 0⟩⟩, 0, 0,
        0⟩ : FlattenedEventIterator).init_line_loop
          ⟨⟨0, 0⟩, ⟨1, 0⟩⟩)).2.remaining_distance = 0 :=
  handle_line_terminates ⟨⟨[1, 2], [1, 3], 0, 0, 0, 0⟩, ⟨⟨0, 0⟩, ⟨0, 0⟩⟩, 0, 0, 0⟩
    ⟨⟨0, 0⟩, ⟨1, 0⟩⟩
    (by
      refine ⟨?_, ?_, ?_, ?_, ?_, ?_, ?_, ?_, ?_⟩
      · norm_num [DashCursor.cumulate_array, cumulate_go]
      · exact List.cons_ne_nil _ _
      · norm_num
      · simp
      · norm_num [cumBelow]
      · norm_num [List.getD_cons_zero]
      · simp
      · norm_num [cumBelow]
      · norm_num [List.getD_cons_zero])

/-- C4: dashing the single straight line from (0,0) to (10,0) with pattern
`[1, 2]` and offset 0 emits exactly the dash sub-segments (0,0)-(1,0),
(3,0)-(4,0), (6,0)-(7,0), (9,0)-(10,0) interleaved with gaps of length 2,
and the emitted dash and gap lengths sum to exactly 10. -/
theorem dasher_line_concrete :
    (FlattenedEventIterator.handle_line 10
        (FlattenedEventIterator.new (⟨0, [1, 2]⟩ : DashOptions ℝ))
        ⟨⟨0, 0⟩, ⟨10, 0⟩⟩).1 =
      [DashOrGap.Dash ⟨0, 0⟩ ⟨1, 0⟩ 1, DashOrGap.Gap 2,
       DashOrGap.Dash ⟨3, 0⟩ ⟨4, 0⟩ 1, DashOrGap.Gap 2,
       DashOrGap.Dash ⟨6, 0⟩ ⟨7, 0⟩ 1, DashOrGap.Gap 2,
       DashOrGap.Dash ⟨9, 0⟩ ⟨10, 0⟩ 1] ∧
    ((FlattenedEventIterator.handle_line 10
        (FlattenedEventIterator.new (⟨0, [1, 2]⟩ : DashOptions ℝ))
        ⟨⟨0, 0⟩, ⟨10, 0⟩⟩).1.map DashOrGap.distance).sum = 10 := by
  have h100 : Real.sqrt 100 = 10 := by
    rw [show (100 : ℝ) = 10 ^ 2 by norm_num, Real.sqrt_sq (by norm_num : (0:ℝ) ≤ 10)]
  have hinit : (FlattenedEventIterator.new (⟨0, [1, 2]⟩ : DashOptions ℝ)).init_line_loop
      ⟨⟨0, 0⟩, ⟨10, 0⟩⟩ =
      ⟨⟨[1, 2], [1, 3], 0, 0, 0, 0⟩, ⟨⟨0, 0⟩, ⟨10, 0⟩⟩, 10, 0, 10⟩ := by
    norm_num [FlattenedEventIterator.new, FlattenedEventIterator.init_line_loop,
      LineSegment.length, h100, DashCursor.new, DashCursor.cumulate_array, cumulate_go,
      rem_euclid, DashCursor.find_index_in_cumulative_array, find_index_go, List.getLastD]
  have h1 : (⟨⟨[1, 2], [1, 3], 0, 0, 0, 0⟩, ⟨⟨0, 0⟩, ⟨10, 0⟩⟩, 10, 0,
      10⟩ : FlattenedEventIterator).inner_line_loop =
      (DashOrGap.Dash ⟨0, 0⟩ ⟨1, 0⟩ 1,
       ⟨⟨[1, 2], [1, 3], 0, 0, 1, 1⟩, ⟨⟨0, 0⟩, ⟨10, 0⟩⟩, 10, 1, 9⟩) := by
    norm_num [FlattenedEventIterator.inner_line_loop, DashCursor.progress_by,
      DashCursor.make_dash_action_type, List.getD_cons_zero, List.getD_cons_succ,
      LineSegment.split_range, LineSegment.sample, LineSegment.length, Real.sqrt_one]
  have h2 : (⟨⟨[1, 2], [1, 3], 0, 0, 1, 1⟩, ⟨⟨0, 0⟩, ⟨10, 0⟩⟩, 10, 1,
      9⟩ : FlattenedEventIterator).inner_line_loop =
      (DashOrGap.Gap 2,
       ⟨⟨[1, 2], [1, 3], 0, 0, 0, 0⟩, ⟨⟨0, 0⟩, ⟨10, 0⟩⟩, 10, 3, 7⟩) := by
    norm_num [FlattenedEventIterator.inner_line_loop, DashCursor.progress_by,
      DashCursor.make_dash_action_type, List.getD_cons_zero, List.getD_cons_succ,
      LineSegment.split_range, LineSegment.sample, LineSegment.length, Real.sqrt_one]
  have h3 : (⟨⟨[1, 2], [1, 3], 0, 0, 0, 0⟩, ⟨⟨0, 0⟩, ⟨10, 0⟩⟩, 10, 3,
      7⟩ : FlattenedEventIterator).inner_line_loop =
      (DashOrGap.Dash ⟨3, 0⟩ ⟨4, 0⟩ 1,
       ⟨⟨[1, 2], [1, 3], 0, 0, 1, 1⟩, ⟨⟨0, 0⟩, ⟨10, 0⟩⟩, 10, 4, 6⟩) := by
    norm_num [FlattenedEventIterator.inner_line_loop, DashCursor.progress_by,
      DashCursor.make_dash_action_type, List.getD_cons_zero, List.getD_cons_succ,
      LineSegment.split_range, LineSegment.sample, LineSegment.length, Real.sqrt_one]
  have h4 : (⟨⟨[1, 2], [1, 3], 0, 0, 1, 1⟩, ⟨⟨0, 0⟩, ⟨10, 0⟩⟩, 10, 4,
      6⟩ : FlattenedEventIterator).inner_line_loop =
      (DashOrGap.Gap 2,
       ⟨⟨[1, 2], [1, 3], 0, 0, 0, 0⟩, ⟨⟨0, 0⟩, ⟨10, 0⟩⟩, 10, 6, 4⟩) := by
    norm_num [FlattenedEventIterator.inner_line_loop, DashCursor.progress_by,
      DashCursor.make_dash_action_type, List.getD_cons_zero, List.getD_cons_succ,
      LineSegment.split_range, LineSegment.sample, LineSegment.length, Real.sqrt_one]
  have h5 : (⟨⟨[1, 2], [1, 3], 0, 0, 0, 0⟩, ⟨⟨0, 0⟩, ⟨10, 0⟩⟩, 10, 6,
      4⟩ : FlattenedEventIterator).inner_line_loop =
      (DashOrGap.Dash ⟨6, 0⟩ ⟨7, 0⟩ 1,
       ⟨⟨[1, 2], [1, 3], 0, 0, 1, 1⟩, ⟨⟨0, 0⟩, ⟨10, 0⟩⟩, 10, 7, 3⟩) := by
    norm_num [FlattenedEventIterator.inner_line_loop, DashCursor.progress_by,
      DashCursor.make_dash_action_type, List.getD_cons_zero, List.getD_cons_succ,
      LineSegment.split_range, LineSegment.sample, LineSegment.length, Real.sqrt_one]
  have h6 : (⟨⟨[1, 2], [1, 3], 0, 0, 1, 1⟩, ⟨⟨0, 0⟩, ⟨10, 0⟩⟩, 10, 7,
      3⟩ : FlattenedEventIterator).inner_line_loop =
      (DashOrGap.Gap 2,
       ⟨⟨[1, 2], [1, 3], 0, 0, 0, 0⟩, ⟨⟨0, 0⟩, ⟨10, 0⟩⟩, 10, 9, 1⟩) := by
    norm_num [FlattenedEventIterator.inner_line_loop, DashCursor.progress_by,
      DashCursor.make_dash_action_type, List.getD_cons_zero, List.getD_cons_succ,
      LineSegment.split_range, LineSegment.sample, LineSegment.length, Real.sqrt_one]
  have h7 : (⟨⟨[1, 2], [1, 3], 0, 0, 0, 0⟩, ⟨⟨0, 0⟩, ⟨10, 0⟩⟩, 10, 9,
      1⟩ : FlattenedEventIterator).inner_line_loop =
      (DashOrGap.Dash ⟨9, 0⟩ ⟨10, 0⟩ 1,
       ⟨⟨[1, 2], [1, 3], 0, 0, 1, 1⟩, ⟨⟨0, 0⟩, ⟨10, 0⟩⟩, 10, 10, 0⟩) := by
    norm_num [FlattenedEventIterator.inner_line_loop, DashCursor.progress_by,
      DashCursor.make_dash_action_type, List.getD_cons_zero, List.getD_cons_succ,
      LineSegment.split_range, LineSegment.sample, LineSegment.length, Real.sqrt_one]
  have h1a := congrArg Prod.fst h1
  have h1b := congrArg Prod.snd h1
  have h2a := congrArg Prod.fst h2
  have h2b := congrArg Prod.snd h2
  have h3a := congrArg Prod.fst h3
  have h3b := congrArg Prod.snd h3
  have h4a := congrArg Prod.fst h4
  have h4b := congrArg Prod.snd h4
  have h5a := congrArg Prod.fst h5
  have h5b := congrArg Prod.snd h5
  have h6a := congrArg Prod.fst h6
  have h6b := congrArg Prod.snd h6
  have h7a := congrArg Prod.fst h7
  have h7b := congrArg Prod.snd h7
  simp only [] at h1a h1b h2a h2b h3a h3b h4a h4b h5a h5b h6a h6b h7a h7b
  have e1 : FlattenedEventIterator.line_loop 10
      ⟨⟨[1, 2], [1, 3], 0, 0, 0, 0⟩, ⟨⟨0, 0⟩, ⟨10, 0⟩⟩, 10, 0, 10⟩ =
      ((⟨⟨[1, 2], [1, 3], 0, 0, 0, 0⟩, ⟨⟨0, 0⟩, ⟨10, 0⟩⟩, 10, 0,
          10⟩ : FlattenedEventIterator).inner_line_loop.1 ::
        (FlattenedEventIterator.line_loop 9
          (⟨⟨[1, 2], [1, 3], 0, 0, 0, 0⟩, ⟨⟨0, 0⟩, ⟨10, 0⟩⟩, 10, 0,
            10⟩ : FlattenedEventIterator).inner_line_loop.2).1,
       (FlattenedEventIterator.line_loop 9
          (⟨⟨[1, 2], [1, 3], 0, 0, 0, 0⟩, ⟨⟨0, 0⟩, ⟨10, 0⟩⟩, 10, 0,
            10⟩ : FlattenedEventIterator).inner_line_loop.2).2) :=
    line_loop_step 9 _ (by norm_num)
  have e2 : FlattenedEventIterator.line_loop 9
      ⟨⟨[1, 2], [1, 3], 0, 0, 1, 1⟩, ⟨⟨0, 0⟩, ⟨10, 0⟩⟩, 10, 1, 9⟩ =
      ((⟨⟨[1, 2], [1, 3], 0, 0, 1, 1⟩, ⟨⟨0, 0⟩, ⟨10, 0⟩⟩, 10, 1,
          9⟩ : FlattenedEventIterator).inner_line_loop.1 ::
        (FlattenedEventIterator.line_loop 8
          (⟨⟨[1, 2], [1, 3], 0, 0, 1, 1⟩, ⟨⟨0, 0⟩, ⟨10, 0⟩⟩, 10, 1,
            9⟩ : FlattenedEventIterator).inner_line_loop.2).1,
       (FlattenedEventIterator.line_loop 8
          (⟨⟨[1, 2], [1, 3], 0, 0, 1, 1⟩, ⟨⟨0, 0⟩, ⟨10, 0⟩⟩, 10, 1,
            9⟩ : FlattenedEventIterator).inner_line_loop.2).2) :=
    line_loop_step 8 _ (by norm_num)
  have e3 : FlattenedEventIterator.line_loop 8
      ⟨⟨[1, 2], [1, 3], 0, 0, 0, 0⟩, ⟨⟨0, 0⟩, ⟨10, 0⟩⟩, 10, 3, 7⟩ =
      ((⟨⟨[1, 2], [1, 3], 0, 0, 0, 0⟩, ⟨⟨0, 0⟩, ⟨10, 0⟩⟩, 10, 3,
          7⟩ : FlattenedEventIterator).inner_line_loop.1 ::
        (FlattenedEventIterator.line_loop 7
          (⟨⟨[1, 2], [1, 3], 0, 0, 0, 0⟩, ⟨⟨0, 0⟩, ⟨10, 0⟩⟩, 10, 3,
            7⟩ : FlattenedEventIterator).inner_line_loop.2).1,
       (FlattenedEventIterator.line_loop 7
          (⟨⟨[1, 2], [1, 3], 0, 0, 0, 0⟩, ⟨⟨0, 0⟩, ⟨10, 0⟩⟩, 10, 3,
            7⟩ : FlattenedEventIterator).inner_line_loop.2).2) :=
    line_loop_step 7 _ (by norm_num)
  have e4 : FlattenedEventIterator.line_loop 7
      ⟨⟨[1, 2], [1, 3], 0, 0, 1, 1⟩, ⟨⟨0, 0⟩, ⟨10, 0⟩⟩, 10, 4, 6⟩ =
      ((⟨⟨[1, 2], [1, 3], 0, 0, 1, 1⟩, ⟨⟨0, 0⟩, ⟨10, 0⟩⟩, 10, 4,
          6⟩ : FlattenedEventIterator).inner_line_loop.1 ::
        (FlattenedEventIterator.line_loop 6
          (⟨⟨[1, 2], [1, 3], 0, 0, 1, 1⟩, ⟨⟨0, 0⟩, ⟨10, 0⟩⟩, 10, 4,
            6⟩ : FlattenedEventIterator).inner_line_loop.2).1,
       (FlattenedEventIterator.line_loop 6
          (⟨⟨[1, 2], [1, 3], 0, 0, 1, 1⟩, ⟨⟨0, 0⟩, ⟨10, 0⟩⟩, 10, 4,
            6⟩ : FlattenedEventIterator).inner_line_loop.2).2) :=
    line_loop_step 6 _ (by norm_num)
  have e5 : FlattenedEventIterator.line_loop 6
      ⟨⟨[1, 2], [1, 3], 0, 0, 0, 0⟩, ⟨⟨0, 0⟩, ⟨10, 0⟩⟩, 10, 6, 4⟩ =
      ((⟨⟨[1, 2], [1, 3], 0, 0, 0, 0⟩, ⟨⟨0, 0⟩, ⟨10, 0⟩⟩, 10, 6,
          4⟩ : FlattenedEventIterator).inner_line_loop.1 ::
        (FlattenedEventIterator.line_loop 5
          (⟨⟨[1, 2], [1, 3], 0, 0, 0, 0⟩, ⟨⟨0, 0⟩, ⟨10, 0⟩⟩, 10, 6,
            4⟩ : FlattenedEventIterator).inner_line_loop.2).1,
       (FlattenedEventIterator.line_loop 5
          (⟨⟨[1, 2], [1, 3], 0, 0, 0, 0⟩, ⟨⟨0, 0⟩, ⟨10, 0⟩⟩, 10, 6,
            4⟩ : FlattenedEventIterator).inner_line_loop.2).2) :=
    line_loop_step 5 _ (by norm_num)
  have e6 : FlattenedEventIterator.line_loop 5
      ⟨⟨[1, 2], [1, 3], 0, 0, 1, 1⟩, ⟨⟨0, 0⟩, ⟨10, 0⟩⟩, 10, 7, 3⟩ =
      ((⟨⟨[1, 2], [1, 3], 0, 0, 1, 1⟩, ⟨⟨0, 0⟩, ⟨10, 0⟩⟩, 10, 7,
          3⟩ : FlattenedEventIterator).inner_line_loop.1 ::
        (FlattenedEventIterator.line_loop 4
          (⟨⟨[1, 2], [1, 3], 0, 0, 1, 1⟩, ⟨⟨0, 0⟩, ⟨10, 0⟩⟩, 10, 7,
            3⟩ : FlattenedEventIterator).inner_line_loop.2).1,
       (FlattenedEventIterator.line_loop 4
          (⟨⟨[1, 2], [1, 3], 0, 0, 1, 1⟩, ⟨⟨0, 0⟩, ⟨10, 0⟩⟩, 10, 7,
            3⟩ : FlattenedEventIterator).inner_line_loop.2).2) :=
    line_loop_step 4 _ (by norm_num)
  have e7 : FlattenedEventIterator.line_loop 4
      ⟨⟨[1, 2], [1, 3], 0, 0, 0, 0⟩, ⟨⟨0, 0⟩, ⟨10, 0⟩⟩, 10, 9, 1⟩ =
      ((⟨⟨[1, 2], [1, 3], 0, 0, 0, 0⟩, ⟨⟨0, 0⟩, ⟨10, 0⟩⟩, 10, 9,
          1⟩ : FlattenedEventIterator).inner_line_loop.1 ::
        (FlattenedEventIterator.line_loop 3
          (⟨⟨[1, 2], [1, 3], 0, 0, 0, 0⟩, ⟨⟨0, 0⟩, ⟨10, 0⟩⟩, 10, 9,
            1⟩ : FlattenedEventIterator).inner_line_loop.2).1,
       (FlattenedEventIterator.line_loop 3
          (⟨⟨[1, 2], [1, 3], 0, 0, 0, 0⟩, ⟨⟨0, 0⟩, ⟨10, 0⟩⟩, 10, 9,
            1⟩ : FlattenedEventIterator).inner_line_loop.2).2) :=
    line_loop_step 3 _ (by norm_num)
  have estop : FlattenedEventIterator.line_loop 3
      ⟨⟨[1, 2], [1, 3], 0, 0, 1, 1⟩, ⟨⟨0, 0⟩, ⟨10, 0⟩⟩, 10, 10, 0⟩ =
      ([], ⟨⟨[1, 2], [1, 3], 0, 0, 1, 1⟩, ⟨⟨0, 0⟩, ⟨10, 0⟩⟩, 10, 10, 0⟩) :=
    line_loop_stop 3 _ (by norm_num)
  have hfull : FlattenedEventIterator.handle_line 10
      (FlattenedEventIterator.new (⟨0, [1, 2]⟩ : DashOptions ℝ)) ⟨⟨0, 0⟩, ⟨10, 0⟩⟩ =
      FlattenedEventIterator.line_loop 10
        ((FlattenedEventIterator.new (⟨0, [1, 2]⟩ : DashOptions ℝ)).init_line_loop
          ⟨⟨0, 0⟩, ⟨10, 0⟩⟩) := rfl
  rw [hfull, hinit, e1, h1a, h1b, e2, h2a, h2b, e3, h3a, h3b, e4, h4a, h4b,
    e5, h5a, h5b, e6, h6a, h6b, e7, h7a, h7b, estop]
  refine ⟨rfl, ?_⟩
  norm_num [DashOrGap.distance]
